import Mathlib

/-!
Shallow embedding of `tensorrt_llm/models/phi3/phi3small/convert.py`.

Tensors are modelled at the level of their leading (row) axis: a 2-D
tensor is a `List` of rows (each row a `List ℤ`), a 1-D tensor is a
`List ℤ`.  Reshapes that keep the trailing dimension intact act on the
row list; `torch.chunk` is modelled by `torch_chunk`; fallible
operations (invalid reshapes, out-of-range chunk indexing, failing
assertions, missing dict keys) return `none`.  Value-preserving tensor
methods (`.to(dtype)`, `.cpu()`, `.detach()`, `.clone()`,
`.contiguous()`) are modelled as the identity.  Functions generic over
the row type `α` are instantiated with `α = List ℤ` for 2-D weights and
`α = ℤ` for 1-D biases.
-/

namespace Phi3Small

universe u
/-- `torch.chunk(l, k)` along the leading axis.  The chunk size is
`ceil(len / k)`; all chunks have that size except a possibly shorter
last one, so fewer than `k` chunks may be produced.  For a tensor of
size `0` along the axis, `torch.chunk` returns `k` empty chunks
(ATen special-cases `split_size == 0 && dim_size == 0` through
`split_with_sizes` so that the number of chunks is kept). -/
def torch_chunk {α : Type u} (l : List α) (k : Nat) : List (List α) :=
  if l.length = 0 then List.replicate k []
  else
    (List.range ((l.length + (l.length + k - 1) / k - 1) / ((l.length + k - 1) / k))).map
      (fun i => (l.drop (i * ((l.length + k - 1) / k))).take ((l.length + k - 1) / k))

/-- `split(v, tp_size, idx)` from convert.py, for 1-D tensors and for
2-D tensors split along `dim=0` (the row type `α` is then a row).
Out-of-range chunk indexing (`IndexError`) is `none`. -/
def tsplit {α : Type u} (v : List α) (tp_size idx : Nat) : Option (List α) :=
  if tp_size = 1 then some v else (torch_chunk v tp_size)[idx]?

/-- Chunk every row of a matrix along its own (column) axis and keep the
`idx`-th chunk of each: this is `torch.chunk(v, tp, dim=1)[idx]` for a
rectangular 2-D tensor (every row has the dim-1 size, so every row is
chunked with the same chunk size). -/
def rows_chunk : List (List ℤ) → Nat → Nat → Option (List (List ℤ))
  | [], _, _ => some []
  | r :: rs, tp, idx =>
    Option.bind ((torch_chunk r tp)[idx]?) fun r' =>
      Option.bind (rows_chunk rs tp idx) fun rs' => some (r' :: rs')

/-- `split(v, tp_size, idx, dim)` from convert.py for 2-D tensors. -/
def split2d (m : List (List ℤ)) (tp_size idx dim : Nat) : Option (List (List ℤ)) :=
  if tp_size = 1 then some m
  else if dim = 0 then (torch_chunk m tp_size)[idx]?
  else rows_chunk m tp_size idx

/-- `split_matrix_tp(v, tensor_parallel, rank, dim)` from convert.py. -/
def split_matrix_tp (v : List (List ℤ)) (tensor_parallel rank dim : Nat) :
    Option (List (List ℤ)) :=
  split2d v tensor_parallel rank dim

/- ### Model configuration (the dict `config` of convert.py) -/

structure Config where
  num_attention_heads : Nat
  num_kv_heads : Nat
  hidden_size : Nat
  num_hidden_layers : Nat

/- ### Head-group reassembler: `shuffle_qkv_weights` -/

/-- The `head_dim`-row block of kv-group `g` at intra-group position `b`
of a fused QKV tensor viewed as `(num_kv_heads, B, head_dim, last)`:
torch's row-major `reshape` makes block `(g, b)` the rows
`[(g*B+b)*H, (g*B+b)*H + H)`. -/
def qkvBlock {α : Type u} (rows : List α) (B H g b : Nat) : List α :=
  (rows.drop ((g * B + b) * H)).take H

/-- The query rows selected by `shuffle_qkv_weights`
(`weights[:, :-2, :, :]` flattened group-major). -/
def qPart {α : Type u} (rows : List α) (G B H : Nat) : List α :=
  ((List.range G).map
    (fun g => ((List.range (B - 2)).map (fun b => qkvBlock rows B H g b)).flatten)).flatten

/-- The key rows selected by `shuffle_qkv_weights` (`weights[:, -2, :, :]`). -/
def kPart {α : Type u} (rows : List α) (G B H : Nat) : List α :=
  ((List.range G).map (fun g => qkvBlock rows B H g (B - 2))).flatten

/-- The value rows selected by `shuffle_qkv_weights` (`weights[:, -1, :, :]`). -/
def vPart {α : Type u} (rows : List α) (G B H : Nat) : List α :=
  ((List.range G).map (fun g => qkvBlock rows B H g (B - 1))).flatten

/-- `num_q_per_kv = num_heads // num_kv_heads` as computed in
`shuffle_qkv_weights`. -/
def num_q_per_kv (config : Config) : Nat :=
  config.num_attention_heads / config.num_kv_heads

/-- `head_dim = hidden_size // num_heads` as computed in
`shuffle_qkv_weights`. -/
def head_dim (config : Config) : Nat :=
  config.hidden_size / config.num_attention_heads

/-- The leading size required of a fused QKV tensor by the
`reshape(num_kv_heads, num_q_per_kv + 2, head_dim, -1)` in
`shuffle_qkv_weights`. -/
def qkvRows (config : Config) : Nat :=
  config.num_kv_heads * ((num_q_per_kv config + 2) * head_dim config)

/-- `shuffle_qkv_weights(weights, config)` from convert.py, at row level
(`α = List ℤ` for a 2-D weight, `α = ℤ` for a 1-D bias, the 1-D case
being the source's `unsqueeze(1)` / `squeeze()` round trip).  The
`reshape(num_kv_heads, num_q_per_kv + 2, head_dim, last)` raises unless
the leading size is exactly `num_kv_heads * (num_q_per_kv+2) * head_dim`
(`none` here); in the valid case the result is `q ++ k ++ v` exactly as
the slicing/`cat`/`reshape` sequence produces. -/
def shuffle_qkv_weights {α : Type u} (weights : List α) (config : Config) :
    Option (List α) :=
  if weights.length = qkvRows config then
    some (qPart weights config.num_kv_heads (num_q_per_kv config + 2) (head_dim config)
      ++ kPart weights config.num_kv_heads (num_q_per_kv config + 2) (head_dim config)
      ++ vPart weights config.num_kv_heads (num_q_per_kv config + 2) (head_dim config))
  else none

/-- `split_qkv_tp(v, n_head, n_hidden, tensor_parallel, rank)` from
convert.py (and `split_qkv_bias_tp`, which is the same computation one
dimension down: `α = List ℤ` gives the weight version, `α = ℤ` the bias
version; the unused `n_head` argument is dropped).
`v.reshape(3, n_hidden, *)` requires leading size `3 * n_hidden`; the
three blocks are chunked along the middle axis (`dim=1`), the `rank`-th
chunk of each kept (`tp_size == 1` short-circuits in `split`), and the
result flattened back through `reshape(3 * (n_hidden // tensor_parallel), *)`,
which requires the selected chunk to hold exactly
`n_hidden // tensor_parallel` rows per block. -/
def split_qkv_tp {α : Type u} (v : List α) (n_hidden tensor_parallel rank : Nat) :
    Option (List α) :=
  if v.length = 3 * n_hidden then
    (if tensor_parallel = 1 then some v
     else
       Option.bind ((torch_chunk (v.take n_hidden) tensor_parallel)[rank]?) fun b0 =>
       Option.bind ((torch_chunk ((v.drop n_hidden).take n_hidden) tensor_parallel)[rank]?)
         fun b1 =>
       Option.bind ((torch_chunk (v.drop (2 * n_hidden)) tensor_parallel)[rank]?) fun b2 =>
       some (b0 ++ b1 ++ b2)).bind
      fun mid =>
        if mid.length = 3 * (n_hidden / tensor_parallel) then some mid else none
  else none

/-- The grouped-query (`not mha_mode`) QKV split of `split_weights_tp`:
`reshape(num_q_per_kv + 2, -1, hidden_size)` (requires the leading size
to be divisible by `num_q_per_kv + 2`; the middle size is then
`len / (num_q_per_kv + 2)`), slice out the query / key / value
sub-tensors, `split` each along its row axis with the default `dim=0`,
and concatenate the per-rank shards in q/k/v order.  `α = List ℤ` is
the weight path, `α = ℤ` the bias path. -/
def gqa_split {α : Type u} (w : List α) (nq tp rank : Nat) : Option (List α) :=
  if w.length % (nq + 2) = 0 then
    Option.bind (tsplit (w.take (nq * (w.length / (nq + 2)))) tp rank) fun qs =>
    Option.bind
      (tsplit ((w.drop (nq * (w.length / (nq + 2)))).take (w.length / (nq + 2))) tp rank)
      fun ks =>
    Option.bind
      (tsplit ((w.drop ((nq + 1) * (w.length / (nq + 2)))).take (w.length / (nq + 2))) tp rank)
      fun vs =>
    some (qs ++ ks ++ vs)
  else none

/- ### Embedding splitter -/

/-- Modelled from the spec: `pad_vocab_size(vocab_size, tp_size)` is not
defined in this source file (convert.py pulls it from the package
utilities); per the spec the vocabulary dimension is padded "up to the
next multiple" of `tp_size`. -/
def pad_vocab_size (vocab_size tp_size : Nat) : Nat :=
  ((vocab_size + tp_size - 1) / tp_size) * tp_size

/-- `split_embedding(param, tp_size, tp_rank, use_parallel_embedding, sharding_dim)`
from convert.py.  The Python defaults are `use_parallel_embedding=False`
and `sharding_dim=0`; call sites relying on the defaults pass them
explicitly here.  `vocab_size, hidden_size = param.size()` become
`param.length` and `param.headI.length` (rectangular 2-D tensor).
`torch.nn.functional.pad(param, (0, 0, 0, pad_width), value=0)` appends
`pad_width` zero rows at the end.  `none` models the failing
`assert hidden_size % tp_size == 0`. -/
def split_embedding (param : List (List ℤ)) (tp_size tp_rank : Nat)
    (use_parallel_embedding : Bool) (sharding_dim : Nat) : Option (List (List ℤ)) :=
  if use_parallel_embedding = false then some param
  else
    if sharding_dim = 0 then
      if param.length % tp_size ≠ 0 then
        split2d
          (param ++ List.replicate (pad_vocab_size param.length tp_size - param.length)
            (List.replicate param.headI.length 0))
          tp_size tp_rank sharding_dim
      else if param.headI.length % tp_size = 0 then
        split2d param tp_size tp_rank sharding_dim
      else none
    else split2d param tp_size tp_rank sharding_dim

/- ### Split lemmas -/

/- ### Named-tensor dict (Python `dict` of `str` to tensor) -/

/-- A tensor value in a weights dict: 2-D matrix or 1-D vector. -/
inductive TVal
  | mat (m : List (List ℤ))
  | vec (v : List ℤ)
deriving DecidableEq

/-- Keys are Python strings, modelled as character lists. -/
abbrev Key := List Char

/-- A Python dict, as an insertion-ordered association list. -/
abbrev Dict := List (Key × TVal)

/-- Dict lookup; `none` is a `KeyError` at the use sites below. -/
def dlookup : Dict → Key → Option TVal
  | [], _ => none
  | (k2, v) :: d, k => if k2 = k then some v else dlookup d k

/-- `d[k] = v`: replace in place if the key exists, append otherwise. -/
def dinsert : Dict → Key → TVal → Dict
  | [], k, v => [(k, v)]
  | (k2, v2) :: d, k, v =>
    if k2 = k then (k2, v) :: d else (k2, v2) :: dinsert d k v

/-- Python `dict.update`. -/
def dupdate (d : Dict) (es : Dict) : Dict :=
  es.foldl (fun acc e => dinsert acc e.1 e.2) d

/- ### Python string operations on keys -/

/-- Python's `pattern in s`. -/
def containsSub (p : List Char) : List Char → Bool
  | [] => p.isEmpty
  | c :: cs => p.isPrefixOf (c :: cs) || containsSub p cs

/-- Fuel-based worker for `replAll`; one unit of fuel per character of
the subject suffices because every step consumes at least one
character. -/
def replAllAux (p r : List Char) : Nat → List Char → List Char
  | 0, l => l
  | _ + 1, [] => []
  | fuel + 1, c :: cs =>
    if p.isPrefixOf (c :: cs) then r ++ replAllAux p r fuel ((c :: cs).drop p.length)
    else c :: replAllAux p r fuel cs

/-- Python's `s.replace(p, r)`: replace the leftmost, non-overlapping
occurrences of `p` (all our patterns are nonempty, so the empty-pattern
case just returns the subject). -/
def replAll (p r l : List Char) : List Char :=
  if p.isEmpty then l else replAllAux p r l.length l

/- ### Key constants of convert.py -/

def layersPfxK : Key := "transformer.layers.".data

def vocabKeyK : Key := "transformer.vocab_embedding.weight".data

def lmHeadKeyK : Key := "lm_head.weight".data

def qkvSubK : Key := "qkv.".data

def weightSfxK : Key := ".weight".data

def biasSfxK : Key := ".bias".data

def scaleSfxK : Key := ".per_channel_scale".data

/- ### Quantization packer and orchestrator -/

/-- The conversion arguments consumed by `split_weights_tp`.  The dtype
and the int8/int4 precision choice only select the argument passed to
the external quantization kernel; they do not affect the arrangement
logic modelled here. -/
structure Args where
  tp_size : Nat
  use_weight_only : Bool

/-- The external quantization kernel
`torch.ops.trtllm.symmetric_quantize_last_axis_of_batched_matrix`
(an external collaborator per the spec): packed weights plus
per-channel scales. -/
def Quantizer : Type := List (List ℤ) → List (List ℤ) × List ℤ

/-- `get_tllm_linear_weight(weight, prefix, bias, use_weight_only, ...)`
from convert.py: the returned `results` dict as an entry list.  In the
quantizing branch the weight is transposed (`weight.t().contiguous()`)
before the kernel; in the plain branch the weight is stored as-is
(`weight.contiguous()`).  The bias entry is appended exactly when a
bias is passed. -/
def get_tllm_linear_weight (quant : Quantizer) (weight : List (List ℤ)) (pfx : Key)
    (bias : Option (List ℤ)) (use_weight_only : Bool) : Dict :=
  (if use_weight_only then
    [(pfx ++ weightSfxK, TVal.mat (quant weight.transpose).1),
     (pfx ++ scaleSfxK, TVal.vec (quant weight.transpose).2)]
   else [(pfx ++ weightSfxK, TVal.mat weight)])
  ++ (match bias with
      | some b => [(pfx ++ biasSfxK, TVal.vec b)]
      | none => [])

/-- `get_weight(config, prefix, dtype)` from convert.py: look up
`prefix + '.weight'`, which must hold a 2-D tensor; the dtype cast and
`.detach()` are value-preserving. -/
def get_weightD (weights : Dict) (pfx : Key) : Option (List (List ℤ)) :=
  match dlookup weights (pfx ++ weightSfxK) with
  | some (TVal.mat m) => some m
  | _ => none

/-- `get_bias(config, prefix, dtype)` from convert.py. -/
def get_biasD (weights : Dict) (pfx : Key) : Option (List ℤ) :=
  match dlookup weights (pfx ++ biasSfxK) with
  | some (TVal.vec v) => some v
  | _ => none

/-- The fused-QKV part of one iteration of the per-layer loop of
`split_weights_tp`: look up `prefix + '.weight'` / `'.bias'`, split
each through the multi-head path (`split_qkv_tp` /
`split_qkv_bias_tp`) when `num_attention_heads == num_kv_heads` and
through the grouped-query path otherwise, pack through
`get_tllm_linear_weight` and merge with `weights.update`. -/
def qkv_step (quant : Quantizer) (config : Config) (args : Args) (rank : Nat)
    (pfx : Key) (w : Dict) : Option Dict :=
  Option.bind (get_weightD w pfx) fun qkv_weight =>
  Option.bind (get_biasD w pfx) fun qkv_bias =>
  Option.bind
    (if config.num_attention_heads = config.num_kv_heads then
      split_qkv_tp qkv_weight config.hidden_size args.tp_size rank
     else gqa_split qkv_weight (num_q_per_kv config) args.tp_size rank)
    fun split_weight =>
  Option.bind
    (if config.num_attention_heads = config.num_kv_heads then
      split_qkv_tp qkv_bias config.hidden_size args.tp_size rank
     else gqa_split qkv_bias (num_q_per_kv config) args.tp_size rank)
    fun split_bias =>
  some (dupdate w
    (get_tllm_linear_weight quant split_weight pfx (some split_bias) args.use_weight_only))

/-- One non-QKV linear of the per-layer loop: look up weight and bias,
split the weight with `split_matrix_tp` along `dim`, split the bias
along its only axis when `bias_split` (MLP fc) and keep it whole
otherwise (attention dense and MLP proj), pack and merge. -/
def lin_step (quant : Quantizer) (args : Args) (rank : Nat) (pfx : Key) (dim : Nat)
    (bias_split : Bool) (w : Dict) : Option Dict :=
  Option.bind (get_weightD w pfx) fun wgt =>
  Option.bind (get_biasD w pfx) fun b =>
  Option.bind (split_matrix_tp wgt args.tp_size rank dim) fun ws =>
  Option.bind (if bias_split then tsplit b args.tp_size rank else some b) fun bs =>
  some (dupdate w (get_tllm_linear_weight quant ws pfx (some bs) args.use_weight_only))

/-- One iteration of the per-layer loop of `split_weights_tp`: QKV,
attention dense (`dim=1`, bias not split), MLP fc (`dim=0`, bias split),
MLP proj (`dim=1`, bias not split), each updating the shared dict in
sequence. -/
def convert_layer (quant : Quantizer) (config : Config) (args : Args) (rank : Nat)
    (w : Dict) (layer_id : Nat) : Option Dict :=
  Option.bind
    (qkv_step quant config args rank
      (layersPfxK ++ (Nat.repr layer_id).data ++ ".".data ++ "attention.qkv".data) w)
    fun w1 =>
  Option.bind
    (lin_step quant args rank
      (layersPfxK ++ (Nat.repr layer_id).data ++ ".".data ++ "attention.dense".data)
      1 false w1) fun w2 =>
  Option.bind
    (lin_step quant args rank
      (layersPfxK ++ (Nat.repr layer_id).data ++ ".".data ++ "mlp.fc".data)
      0 true w2) fun w3 =>
  lin_step quant args rank
    (layersPfxK ++ (Nat.repr layer_id).data ++ ".".data ++ "mlp.proj".data)
    1 false w3

/-- The sequential `for layer_id in range(...)` loop. -/
def run_layers (step : Dict → Nat → Option Dict) : List Nat → Dict → Option Dict
  | [], w => some w
  | i :: rest, w => Option.bind (step w i) fun w1 => run_layers step rest w1

/-- `split_weights_tp(config, weights, args, rank, dtype)` from
convert.py: the per-layer loop, then
`split_embedding(weights['transformer.vocab_embedding.weight'], tp_size, rank)`
with the Python defaults (`use_parallel_embedding=False`,
`sharding_dim=0`), then `split_matrix_tp(weights['lm_head.weight'], tp_size, rank, dim=0)`. -/
def split_weights_tp (quant : Quantizer) (config : Config) (weights : Dict)
    (args : Args) (rank : Nat) : Option Dict :=
  Option.bind
    (run_layers (fun w i => convert_layer quant config args rank w i)
      (List.range config.num_hidden_layers) weights) fun w1 =>
  Option.bind (dlookup w1 vocabKeyK) fun embT =>
  Option.bind (match embT with | TVal.mat m => some m | TVal.vec _ => none) fun emb =>
  Option.bind (split_embedding emb args.tp_size rank false 0) fun emb2 =>
  Option.bind (dlookup (dinsert w1 vocabKeyK (TVal.mat emb2)) lmHeadKeyK) fun lmT =>
  Option.bind (match lmT with | TVal.mat m => some m | TVal.vec _ => none) fun lm =>
  Option.bind (split_matrix_tp lm args.tp_size rank 0) fun lm2 =>
  some (dinsert (dinsert w1 vocabKeyK (TVal.mat emb2)) lmHeadKeyK (TVal.mat lm2))

/-- The key-rename pass of `convert_hf_weights`: the decoder-layer
renames apply only when `"model.layers."` occurs in the key; the
embedding and final-layer-norm renames apply unconditionally. -/
def rename_key (k : Key) : Key :=
  replAll ("model.final_layernorm.".data) ("transformer.ln_f.".data)
    (replAll ("model.embed_tokens.weight".data) vocabKeyK
      (if containsSub ("model.layers.".data) k then
        replAll ("post_attention_layernorm.".data) ("post_layernorm.".data)
          (replAll ("mlp.down_proj.".data) ("mlp.proj.".data)
            (replAll ("mlp.up_proj.".data) ("mlp.fc.".data)
              (replAll ("query_key_value.".data) (qkvSubK)
                (replAll ("self_attn.".data) ("attention.".data)
                  (replAll ("model.layers.".data) (layersPfxK) k)))))
      else k))

/-- The rename loop of `convert_hf_weights` building the fresh `weights`
dict (values cast with `.to(torch_dtype).cpu()`, value-preserving). -/
def renameAll (hf_state_dict : Dict) : Dict :=
  hf_state_dict.foldl (fun acc p => dinsert acc (rename_key p.1) p.2) []

/-- `shuffle_qkv_weights` applied to a dict value (2-D weight or 1-D
bias). -/
def shuffle_tval (v : TVal) (config : Config) : Option TVal :=
  match v with
  | TVal.mat m => Option.map TVal.mat (shuffle_qkv_weights m config)
  | TVal.vec b => Option.map TVal.vec (shuffle_qkv_weights b config)

/-- The per-key QKV-shuffle pass of `convert_hf_weights`: every entry
whose key contains `"qkv."` is replaced by its shuffle, in place. -/
def shuffle_pass (config : Config) : Dict → Option Dict
  | [] => some []
  | (k, v) :: d =>
    Option.bind (if containsSub qkvSubK k then shuffle_tval v config else some v) fun v2 =>
    Option.bind (shuffle_pass config d) fun d2 => some ((k, v2) :: d2)

/-- `convert_hf_weights(hf_model, config, args, rank)` from convert.py:
rename the checkpoint keys, overwrite `lm_head.weight` with a clone of
the (renamed) input embedding, shuffle every key containing `"qkv."`,
then `split_weights_tp`. -/
def convert_hf_weights (quant : Quantizer) (hf_state_dict : Dict) (config : Config)
    (args : Args) (rank : Nat) : Option Dict :=
  Option.bind (dlookup (renameAll hf_state_dict) vocabKeyK) fun embT =>
  Option.bind (shuffle_pass config (dinsert (renameAll hf_state_dict) lmHeadKeyK embT))
    fun weights2 =>
  split_weights_tp quant config weights2 args rank

/- ### Concrete fixtures used by the witness theorems -/

/-- A concrete stand-in for the external quantization kernel. -/
def quantId : Quantizer := fun m => (m, [])

/-- `num_attention_heads=4, num_kv_heads=2, hidden_size=8` and no
decoder layers (the layer count only drives the orchestrator loop). -/
def cfgA : Config := ⟨4, 2, 8, 0⟩

/-- A two-row embedding and two-row lm-head checkpoint fragment. -/
def wA : Dict := [(vocabKeyK, TVal.mat [[1], [2]]), (lmHeadKeyK, TVal.mat [[3], [4]])]

def argsA : Args := ⟨2, false⟩

/-- A source-named checkpoint holding only the input embedding. -/
def hfA : Dict := [("model.embed_tokens.weight".data, TVal.mat [[1], [2]])]

/-- The 16-row labelled fused QKV tensor of the end-to-end scenario
(`num_attention_heads=4, num_kv_heads=2, hidden_size=8, head_dim=2`
requires `(2+2)*2*2 = 16` rows), row `r` filled with the label `r`. -/
def rows16 : List (List ℤ) := (List.range 16).map (fun r => List.replicate 8 (r : ℤ))

/-- A 10-row tensor (rows labelled `0..9`) for the same configuration. -/
def rows10 : List (List ℤ) := (List.range 10).map (fun r => List.replicate 8 (r : ℤ))

/-- A `30001 × 1` embedding for the vocabulary-padding scenario. -/
def padParam : List (List ℤ) := List.replicate 30001 [5]

/-! ### Theorems -/

theorem torch_chunk_getElem {α : Type u} (l : List α) (k r : Nat) (hk : 1 ≤ k)
    (hdvd : l.length % k = 0) (hr : r < k) :
    (torch_chunk l k)[r]? =
      some ((l.drop (r * (l.length / k))).take (l.length / k)) := by
  rcases Nat.eq_zero_or_pos l.length with h0 | hpos
  · have hl : l = [] := List.length_eq_zero.mp h0
    subst hl
    simp [torch_chunk, List.getElem?_replicate, hr]
  · have hk0 : 0 < k := hk
    obtain ⟨d, hd⟩ : k ∣ l.length := Nat.dvd_of_mod_eq_zero hdvd
    have hdpos : 0 < d := by
      rcases Nat.eq_zero_or_pos d with h | h
      · subst h; omega
      · exact h
    have hdiv : l.length / k = d := by
      rw [hd]; exact Nat.mul_div_cancel_left d hk0
    have hcs : (l.length + k - 1) / k = d := by
      have h1 : l.length + k - 1 = k * d + (k - 1) := by omega
      rw [h1, Nat.mul_add_div hk0]
      have : (k - 1) / k = 0 := Nat.div_eq_of_lt (by omega)
      omega
    have hnc : (l.length + (l.length + k - 1) / k - 1) / ((l.length + k - 1) / k) = k := by
      rw [hcs]
      have h1 : l.length + d - 1 = d * k + (d - 1) := by
        have : l.length = d * k := by rw [hd]; ring
        omega
      rw [h1, Nat.mul_add_div hdpos]
      have : (d - 1) / d = 0 := Nat.div_eq_of_lt (by omega)
      omega
    have hne : ¬ l.length = 0 := by omega
    rw [torch_chunk, if_neg hne, hnc, hcs, List.getElem?_map, List.getElem?_range hr]
    simp [hdiv]

theorem join_chunks {α : Type u} (c : Nat) :
    ∀ (k : Nat) (l : List α), l.length = k * c →
      (((List.range k).map (fun i => (l.drop (i * c)).take c)).flatten) = l := by
  intro k
  induction k with
  | zero =>
    intro l hl
    have : l = [] := List.length_eq_zero.mp (by simpa using hl)
    simp [this]
  | succ n ih =>
    intro l hl
    rw [add_one_mul] at hl
    rw [List.range_succ_eq_map, List.map_cons, List.map_map, List.flatten_cons]
    have hmap : (List.map ((fun i => (l.drop (i * c)).take c) ∘ Nat.succ) (List.range n)) =
        (List.map (fun i => ((l.drop c).drop (i * c)).take c) (List.range n)) := by
      apply List.map_congr_left
      intro a _
      simp only [Function.comp]
      rw [List.drop_drop, Nat.succ_mul, Nat.add_comm]
    rw [hmap, ih (l.drop c) (by rw [List.length_drop]; omega)]
    simp only [Nat.zero_mul, List.drop_zero]
    exact List.take_append_drop c l

theorem length_chunk_of_dvd {α : Type u} (l : List α) (k r : Nat)
    (hdvd : l.length % k = 0) (hr : r < k) :
    ((l.drop (r * (l.length / k))).take (l.length / k)).length = l.length / k := by
  obtain ⟨d, hd⟩ : k ∣ l.length := Nat.dvd_of_mod_eq_zero hdvd
  have hk0 : 0 < k := by omega
  have hdiv : l.length / k = d := by rw [hd]; exact Nat.mul_div_cancel_left d hk0
  have h3 : (r + 1) * d ≤ k * d := Nat.mul_le_mul_right d (Nat.succ_le_of_lt hr)
  rw [add_one_mul] at h3
  rw [hdiv, List.length_take, List.length_drop, hd]
  omega

theorem mapM_eq_some_map {β : Type} {γ : Type} (f : β → Option γ) (g : β → γ) :
    ∀ (l : List β), (∀ a ∈ l, f a = some (g a)) → l.mapM f = some (l.map g) := by
  intro l
  induction l with
  | nil => intro _; rfl
  | cons a t ih =>
    intro h
    rw [List.mapM_cons, h a (by simp), ih (fun b hb => h b (by simp [hb]))]
    rfl

/- ### Model configuration (the dict `config` of convert.py) -/

theorem inner_flatten_split {α : Type u} (h : Nat → List α) (m : Nat) :
    ((List.range (m + 2)).map h).flatten =
      ((List.range m).map h).flatten ++ h m ++ h (m + 1) := by
  rw [show m + 2 = (m + 1) + 1 from rfl, List.range_succ, List.range_succ]
  simp [List.map_append, List.flatten_append, List.append_assoc]

theorem regroup_perm {α : Type u} (f : Nat → Nat → List α) (m : Nat) :
    ∀ G : Nat,
      (((List.range G).map
          (fun g => ((List.range (m + 2)).map (fun b => f g b)).flatten)).flatten).Perm
        ((((List.range G).map
            (fun g => ((List.range m).map (fun b => f g b)).flatten)).flatten)
          ++ (((List.range G).map (fun g => f g m)).flatten)
          ++ (((List.range G).map (fun g => f g (m + 1))).flatten)) := by
  intro G
  induction G with
  | zero => simp
  | succ n ih =>
    rw [List.range_succ n]
    simp only [List.map_append, List.flatten_append, List.map_cons, List.map_nil,
      List.flatten_cons, List.flatten_nil, List.append_nil]
    rw [inner_flatten_split (fun b => f n b) m]
    rw [← Multiset.coe_eq_coe] at ih ⊢
    simp only [← Multiset.coe_add] at ih ⊢
    rw [ih]
    abel

theorem rows_eq_flatten {α : Type u} (rows : List α) (G B H : Nat)
    (h : rows.length = G * (B * H)) :
    ((List.range G).map
      (fun g => ((List.range B).map (fun b => qkvBlock rows B H g b)).flatten)).flatten
      = rows := by
  have hseg : ∀ g ∈ List.range G,
      ((List.range B).map (fun b => qkvBlock rows B H g b)).flatten
        = (rows.drop (g * (B * H))).take (B * H) := by
    intro g hg
    have hg' : g < G := List.mem_range.mp hg
    have hlen : ((rows.drop (g * (B * H))).take (B * H)).length = B * H := by
      have hle := Nat.mul_le_mul_right (B * H) (Nat.succ_le_of_lt hg')
      rw [Nat.succ_mul] at hle
      rw [List.length_take, List.length_drop, h]
      omega
    have hjc := join_chunks H B ((rows.drop (g * (B * H))).take (B * H)) hlen
    rw [← hjc]
    apply congrArg
    apply List.map_congr_left
    intro b hb
    have hb' : b < B := List.mem_range.mp hb
    have hbH := Nat.mul_le_mul_right H (Nat.succ_le_of_lt hb')
    rw [Nat.succ_mul] at hbH
    rw [qkvBlock, List.drop_take, List.take_take, List.drop_drop]
    have h1 : (g * B + b) * H = g * (B * H) + b * H := by ring
    have h2 : min H (B * H - b * H) = H := by omega
    rw [h1, h2]
  rw [List.map_congr_left hseg]
  exact join_chunks (B * H) G rows h

theorem shuffle_parts_perm {α : Type u} (rows : List α) (G B H : Nat) (hB : 2 ≤ B)
    (h : rows.length = G * (B * H)) :
    (qPart rows G B H ++ kPart rows G B H ++ vPart rows G B H).Perm rows := by
  obtain ⟨m, rfl⟩ : ∃ m, B = m + 2 := ⟨B - 2, by omega⟩
  have hr := regroup_perm (fun g b => qkvBlock rows (m + 2) H g b) m G
  rw [rows_eq_flatten rows G (m + 2) H h] at hr
  have e2 : m + 2 - 2 = m := by omega
  have e1 : m + 2 - 1 = m + 1 := by omega
  rw [qPart, kPart, vPart, e2, e1]
  exact hr.symm

theorem shuffle_qkv_eq_some_perm {α : Type u} (rows : List α) (config : Config)
    (h : rows.length = qkvRows config) :
    shuffle_qkv_weights rows config =
      some (qPart rows config.num_kv_heads (num_q_per_kv config + 2) (head_dim config)
        ++ kPart rows config.num_kv_heads (num_q_per_kv config + 2) (head_dim config)
        ++ vPart rows config.num_kv_heads (num_q_per_kv config + 2) (head_dim config))
      ∧ (qPart rows config.num_kv_heads (num_q_per_kv config + 2) (head_dim config)
        ++ kPart rows config.num_kv_heads (num_q_per_kv config + 2) (head_dim config)
        ++ vPart rows config.num_kv_heads (num_q_per_kv config + 2) (head_dim config)).Perm
          rows := by
  constructor
  · unfold shuffle_qkv_weights
    rw [if_pos h]
  · exact shuffle_parts_perm rows config.num_kv_heads (num_q_per_kv config + 2)
      (head_dim config) (by omega) (by rw [h, qkvRows])

/- ### QKV tensor-parallel splitters -/

theorem tsplit_of_dvd {α : Type u} (v : List α) (tp r : Nat) (htp : 1 ≤ tp)
    (hdvd : v.length % tp = 0) (hr : r < tp) :
    tsplit v tp r = some ((v.drop (r * (v.length / tp))).take (v.length / tp)) := by
  rcases Nat.lt_or_ge 1 tp with h2 | h1
  · rw [tsplit, if_neg (by omega)]
    exact torch_chunk_getElem v tp r htp hdvd hr
  · have : tp = 1 := by omega
    subst this
    have : r = 0 := by omega
    subst this
    rw [tsplit, if_pos rfl, Nat.div_one, Nat.zero_mul, List.drop_zero, List.take_length]

theorem rows_chunk_of_uniform (m : List (List ℤ)) (tp r L : Nat) (htp : 1 ≤ tp)
    (hrows : ∀ row ∈ m, row.length = L) (hdvd : L % tp = 0) (hr : r < tp) :
    rows_chunk m tp r =
      some (m.map (fun row => (row.drop (r * (L / tp))).take (L / tp))) := by
  induction m with
  | nil => rfl
  | cons a t ih =>
    have ha : a.length = L := hrows a (by simp)
    have hchunk := torch_chunk_getElem a tp r htp (by rw [ha]; exact hdvd) hr
    rw [ha] at hchunk
    rw [rows_chunk, hchunk, ih (fun row hrow => hrows row (by simp [hrow]))]
    rfl

theorem split2d_cols (m : List (List ℤ)) (tp r L : Nat) (htp : 1 ≤ tp)
    (hrows : ∀ row ∈ m, row.length = L) (hdvd : L % tp = 0) (hr : r < tp) :
    split2d m tp r 1 =
      some (m.map (fun row => (row.drop (r * (L / tp))).take (L / tp))) := by
  rcases Nat.lt_or_ge 1 tp with h2 | h1
  · rw [split2d, if_neg (by omega), if_neg (by omega)]
    exact rows_chunk_of_uniform m tp r L htp hrows hdvd hr
  · have htp1 : tp = 1 := by omega
    subst htp1
    have hr0 : r = 0 := by omega
    subst hr0
    rw [split2d, if_pos rfl]
    have : ∀ row ∈ m, (fun row => (List.drop (0 * (L / 1)) row).take (L / 1)) row =
        id row := by
      intro row hrow
      simp [Nat.div_one, hrows row hrow, List.take_of_length_le, Nat.le_refl]
    rw [List.map_congr_left this, List.map_id]


theorem split2d_dim0_eq_tsplit (m : List (List ℤ)) (tp r : Nat) :
    split2d m tp r 0 = tsplit m tp r := by
  rw [split2d, tsplit]
  by_cases h : tp = 1
  · rw [if_pos h, if_pos h]
  · rw [if_neg h, if_neg h, if_pos rfl]

theorem three_blocks {α : Type u} (w : List α) (n : Nat) (hlen : w.length = 3 * n) :
    w.take n ++ ((w.drop n).take n ++ (w.drop (2 * n)).take n) = w := by
  have e2 : (w.drop n).drop n = w.drop (2 * n) := by
    rw [List.drop_drop, ← two_mul]
  have e3 : (w.drop (2 * n)).take n = w.drop (2 * n) :=
    List.take_of_length_le (by rw [List.length_drop]; omega)
  rw [e3, ← e2, List.take_append_drop, List.take_append_drop]

/- ### Dict lemmas -/

theorem dlookup_dinsert_self (d : Dict) (k : Key) (v : TVal) :
    dlookup (dinsert d k v) k = some v := by
  induction d with
  | nil => simp [dinsert, dlookup]
  | cons e d ih =>
    obtain ⟨k2, v2⟩ := e
    rw [dinsert]
    by_cases h : k2 = k
    · rw [if_pos h, dlookup, if_pos h]
    · rw [if_neg h, dlookup, if_neg h, ih]

theorem dlookup_dinsert_ne (d : Dict) (k k2 : Key) (v : TVal) (hne : k ≠ k2) :
    dlookup (dinsert d k v) k2 = dlookup d k2 := by
  induction d with
  | nil => simp [dinsert, dlookup, hne]
  | cons e d ih =>
    obtain ⟨ke, ve⟩ := e
    rw [dinsert]
    by_cases h : ke = k
    · rw [if_pos h, dlookup, dlookup]
      have : ¬ ke = k2 := by rw [h]; exact hne
      rw [if_neg this, if_neg this]
    · rw [if_neg h, dlookup, dlookup]
      by_cases h2 : ke = k2
      · rw [if_pos h2, if_pos h2]
      · rw [if_neg h2, if_neg h2, ih]

theorem dlookup_dupdate_not_mem (es : Dict) (k : Key) :
    ∀ (d : Dict), (∀ e ∈ es, e.1 ≠ k) → dlookup (dupdate d es) k = dlookup d k := by
  induction es with
  | nil => intro d _; rfl
  | cons e es ih =>
    intro d h
    rw [dupdate, List.foldl_cons]
    have step : dlookup (dupdate (dinsert d e.1 e.2) es) k
        = dlookup (dinsert d e.1 e.2) k :=
      ih (dinsert d e.1 e.2) (fun e2 he2 => h e2 (by simp [he2]))
    rw [show List.foldl (fun acc e2 => dinsert acc e2.1 e2.2) (dinsert d e.1 e.2) es
        = dupdate (dinsert d e.1 e.2) es from rfl]
    rw [step, dlookup_dinsert_ne d e.1 k e.2 (h e (by simp))]

/- ### Key shape lemmas -/

theorem isPrefixOf_append_self (p t : List Char) : p.isPrefixOf (p ++ t) = true := by
  induction p with
  | nil => simp [List.isPrefixOf]
  | cons a as ih => simp [List.isPrefixOf, ih]

theorem layer_key_ne (k mid : Key) (hk : layersPfxK.isPrefixOf k = false) :
    layersPfxK ++ mid ≠ k := by
  intro h
  rw [← h, isPrefixOf_append_self] at hk
  simp at hk

theorem get_tllm_keys (quant : Quantizer) (weight : List (List ℤ)) (pfx : Key)
    (bias : Option (List ℤ)) (uwo : Bool) :
    ∀ e ∈ get_tllm_linear_weight quant weight pfx bias uwo, ∃ s, e.1 = pfx ++ s := by
  intro e he
  cases uwo <;> cases bias <;> simp [get_tllm_linear_weight] at he <;>
    [skip; rcases he with he | he; rcases he with he | he;
      rcases he with he | he | he] <;>
    exact ⟨_, by rw [he]⟩

theorem get_tllm_layer_keys_ne (quant : Quantizer) (weight : List (List ℤ)) (mid : Key)
    (bias : Option (List ℤ)) (uwo : Bool) (k : Key)
    (hk : layersPfxK.isPrefixOf k = false) :
    ∀ e ∈ get_tllm_linear_weight quant weight (layersPfxK ++ mid) bias uwo, e.1 ≠ k := by
  intro e he
  obtain ⟨s, hs⟩ := get_tllm_keys quant weight (layersPfxK ++ mid) bias uwo e he
  rw [hs, List.append_assoc]
  exact layer_key_ne k (mid ++ s) hk

/- ### C3: partition completeness of `split` -/

/-- C3: for any tensor whose size along the chosen axis is divisible by
`tp_size ≥ 1`, the shards `split(x, tp_size, r, axis)` for
`r in [0, tp_size)` all exist and concatenating them along the axis
reconstructs the tensor exactly.  The first conjunct is the leading
axis (1-D tensors and `dim=0`, rows being opaque values of any type fit
this by instantiation of the row entries); the second is `dim=1` on a
rectangular 2-D tensor, where concatenation along the axis means
concatenating, for every row index `i`, the `i`-th rows of the shards
in rank order. -/
theorem split_partition_completeness (v : List ℤ) (m : List (List ℤ)) (tp L : Nat)
    (htp : 1 ≤ tp) (hv : v.length % tp = 0)
    (hm : ∀ row ∈ m, row.length = L) (hL : L % tp = 0) :
    (∃ ss, (List.range tp).mapM (fun r => tsplit v tp r) = some ss ∧ ss.flatten = v) ∧
    (∃ ms, (List.range tp).mapM (fun r => split2d m tp r 1) = some ms ∧
      ∀ i, ((ms.map (fun s => s.getD i [])).flatten) = m.getD i []) := by
  constructor
  · refine ⟨(List.range tp).map
        (fun r => (v.drop (r * (v.length / tp))).take (v.length / tp)), ?_, ?_⟩
    · exact mapM_eq_some_map _ _ _
        (fun r hr => tsplit_of_dvd v tp r htp hv (List.mem_range.mp hr))
    · exact join_chunks (v.length / tp) tp v
        (Nat.mul_div_cancel' (Nat.dvd_of_mod_eq_zero hv)).symm
  · refine ⟨(List.range tp).map
        (fun r => m.map (fun row => (row.drop (r * (L / tp))).take (L / tp))), ?_, ?_⟩
    · exact mapM_eq_some_map _ _ _
        (fun r hr => split2d_cols m tp r L htp hm hL (List.mem_range.mp hr))
    · intro i
      rcases Nat.lt_or_ge i m.length with hi | hi
      · have hrow : ∀ f : List ℤ → List ℤ,
            ((m.map f).getD i []) = f m[i] := by
          intro f
          rw [List.getD_eq_getElem?_getD, List.getElem?_map]
          rw [List.getElem?_eq_getElem hi]
          rfl
        have hmem : m[i] ∈ m := List.getElem_mem hi
        have hLrow : (m[i]).length = L := hm _ hmem
        rw [List.map_map]
        have hcomp : ((List.range tp).map
            ((fun s => s.getD i []) ∘
              (fun r => m.map (fun row => (row.drop (r * (L / tp))).take (L / tp)))))
            = (List.range tp).map
              (fun r => ((m[i]).drop (r * (L / tp))).take (L / tp)) := by
          apply List.map_congr_left
          intro r _
          exact hrow _
        rw [hcomp]
        have hget : m.getD i [] = m[i] := by
          rw [List.getD_eq_getElem?_getD, List.getElem?_eq_getElem hi]
          rfl
        rw [hget]
        have hlen : (m[i]).length = tp * ((m[i]).length / tp) :=
          (Nat.mul_div_cancel' (Nat.dvd_of_mod_eq_zero (by rw [hLrow]; exact hL))).symm
        have := join_chunks ((m[i]).length / tp) tp (m[i]) hlen
        rw [hLrow] at this
        exact this
      · have hz : ∀ r ∈ List.range tp,
            ((fun s => s.getD i ([] : List ℤ)) ∘
              (fun r => m.map (fun row => (row.drop (r * (L / tp))).take (L / tp)))) r
            = (fun _ => ([] : List ℤ)) r := by
          intro r _
          simp only [Function.comp]
          exact List.getD_eq_default _ _ (by rw [List.length_map]; exact hi)
        rw [List.map_map, List.map_congr_left hz, List.getD_eq_default _ _ hi]
        simp

/-- C3 witness: a concrete divisible 1-D split and a concrete `dim=1`
matrix split, with the theorem applied at `tp_size = 2`. -/
theorem split_partition_completeness_witness :
    (tsplit ([3, 4, 5, 6] : List ℤ) 2 0 = some [3, 4] ∧
      tsplit ([3, 4, 5, 6] : List ℤ) 2 1 = some [5, 6] ∧
      split2d [[1, 2], [3, 4]] 2 1 1 = some [[2], [4]]) ∧
    ((∃ ss, (List.range 2).mapM (fun r => tsplit ([3, 4, 5, 6] : List ℤ) 2 r) = some ss ∧
        ss.flatten = [3, 4, 5, 6]) ∧
      (∃ ms, (List.range 2).mapM (fun r => split2d [[1, 2], [3, 4]] 2 r 1) = some ms ∧
        ∀ i, ((ms.map (fun s => s.getD i [])).flatten) = [[1, 2], [3, 4]].getD i [])) :=
  ⟨by decide,
    split_partition_completeness [3, 4, 5, 6] [[1, 2], [3, 4]] 2 2 (by decide) (by decide)
      (by decide) (by decide)⟩

/- ### C6: behaviour of `split` on non-divisible sizes -/

/-- C6 counterexample: `split` raises no error on a non-divisible size:
a 5-element tensor split with `tp_size = 2` silently yields unequal
partitions of sizes 3 and 2 (`torch.chunk` semantics). -/
theorem split_no_divisibility_error :
    tsplit ([0, 1, 2, 3, 4] : List ℤ) 2 0 = some [0, 1, 2] ∧
    tsplit ([0, 1, 2, 3, 4] : List ℤ) 2 1 = some [3, 4] := by decide

/-- C6 amended: `split` contains no divisibility check; when
`tp_size ≥ 2` does not divide the size, rank 0 silently receives the
first `ceil(len / tp_size)` elements, a partition size that cannot be
the uniform size of `tp_size` equal partitions. -/
theorem split_silent_on_indivisible (v : List ℤ) (tp : Nat) (htp : 2 ≤ tp)
    (h : v.length % tp ≠ 0) :
    tsplit v tp 0 = some (v.take ((v.length + tp - 1) / tp)) ∧
    ((v.length + tp - 1) / tp) * tp ≠ v.length := by
  have hn : v.length ≠ 0 := by
    intro h0
    rw [h0] at h
    exact h (Nat.zero_mod tp)
  constructor
  · rw [tsplit, if_neg (by omega), torch_chunk, if_neg hn]
    have hcs : 1 ≤ (v.length + tp - 1) / tp :=
      (Nat.le_div_iff_mul_le (by omega)).mpr (by omega)
    have hnc : 0 < (v.length + (v.length + tp - 1) / tp - 1) / ((v.length + tp - 1) / tp) :=
      Nat.div_pos (by omega) (by omega)
    rw [List.getElem?_map, List.getElem?_range hnc]
    simp [Nat.zero_mul, List.drop_zero]
  · intro heq
    exact h (by rw [← heq]; exact Nat.mul_mod_left _ _)

/-- C6 witness: the amended theorem applied at the 5-element tensor with
`tp_size = 2`. -/
theorem split_silent_on_indivisible_witness :
    (2 ≤ 2 ∧ ([0, 1, 2, 3, 4] : List ℤ).length % 2 ≠ 0) ∧
    (tsplit ([0, 1, 2, 3, 4] : List ℤ) 2 0
        = some (([0, 1, 2, 3, 4] : List ℤ).take
          ((([0, 1, 2, 3, 4] : List ℤ).length + 2 - 1) / 2)) ∧
      ((([0, 1, 2, 3, 4] : List ℤ).length + 2 - 1) / 2) * 2
        ≠ ([0, 1, 2, 3, 4] : List ℤ).length) :=
  ⟨⟨by decide, by decide⟩,
    split_silent_on_indivisible [0, 1, 2, 3, 4] 2 (by decide) (by decide)⟩

/- ### C5: `get_tllm_linear_weight` without quantization -/

/-- C5 counterexample: with quantization disabled the `.weight` entry is
the input weight itself, not its transpose (the `1 × 2` weight
`[[1, 2]]` is stored as `[[1, 2]]`, which differs from its transpose
`[[1], [2]]`). -/
theorem get_tllm_linear_weight_not_transposed :
    dlookup (get_tllm_linear_weight (fun m => (m, [])) [[1, 2]] [] none false)
        ([] ++ weightSfxK) = some (TVal.mat [[1, 2]]) ∧
    TVal.mat [[1, 2]] ≠ TVal.mat (List.transpose [[(1 : ℤ), 2]]) := by decide

/-- C5 amended: with weight-only quantization disabled,
`get_tllm_linear_weight` maps `prefix + ".weight"` to the input weight
unchanged (only made contiguous; the transpose happens solely in the
quantization branch), and maps `prefix + ".bias"` to the bias exactly
when a bias is present. -/
theorem get_tllm_linear_weight_plain_entries (quant : Quantizer)
    (weight : List (List ℤ)) (pfx : Key) (bias : Option (List ℤ)) :
    dlookup (get_tllm_linear_weight quant weight pfx bias false) (pfx ++ weightSfxK)
      = some (TVal.mat weight) ∧
    dlookup (get_tllm_linear_weight quant weight pfx bias false) (pfx ++ biasSfxK)
      = Option.map TVal.vec bias := by
  have hne : ¬ pfx ++ weightSfxK = pfx ++ biasSfxK := by
    intro h
    exact absurd (List.append_cancel_left h) (by decide)
  cases bias with
  | none => exact ⟨by simp [get_tllm_linear_weight, dlookup], by
      simp [get_tllm_linear_weight, dlookup, hne]⟩
  | some b => exact ⟨by simp [get_tllm_linear_weight, dlookup], by
      simp [get_tllm_linear_weight, dlookup, hne]⟩

/- ### C10: the hidden-size assertion of `split_embedding` -/

/-- C10: with parallel embedding enabled and `sharding_dim = 0`, when the
vocabulary size is divisible by `tp_size`, `split_embedding`
additionally asserts `hidden_size % tp_size == 0` and fails whenever the
hidden size is not divisible — although the hidden dimension is not the
one being split; no such check happens on the padding path (vocabulary
not divisible) or for `sharding_dim = 1`. -/
theorem split_embedding_hidden_assert (param : List (List ℤ)) (tp rank : Nat) :
    (param.length % tp = 0 → param.headI.length % tp ≠ 0 →
      split_embedding param tp rank true 0 = none) ∧
    (param.length % tp ≠ 0 →
      split_embedding param tp rank true 0 =
        split2d (param ++ List.replicate (pad_vocab_size param.length tp - param.length)
          (List.replicate param.headI.length 0)) tp rank 0) ∧
    (split_embedding param tp rank true 1 = split2d param tp rank 1) := by
  refine ⟨fun h1 h2 => ?_, fun h1 => ?_, ?_⟩
  · rw [split_embedding, if_neg (by simp), if_pos rfl, if_neg (not_not_intro h1),
      if_neg h2]
  · rw [split_embedding, if_neg (by simp), if_pos rfl, if_pos h1]
  · rw [split_embedding, if_neg (by simp), if_neg (by omega)]

/-- C10 witness: the three branches at concrete inputs: a `2 × 3` tensor
with `tp_size = 2` (vocabulary divisible, hidden size 3 not divisible —
assertion failure); a `3 × 2` tensor with `tp_size = 2` (vocabulary not
divisible — padding path, no hidden check); `sharding_dim = 1` (no
check). -/
theorem split_embedding_hidden_assert_witness :
    (split_embedding [[1, 2, 3], [4, 5, 6]] 2 0 true 0 = none) ∧
    (split_embedding [[1, 2], [3, 4], [5, 6]] 2 0 true 0 =
      split2d ([[1, 2], [3, 4], [5, 6]] ++
        List.replicate (pad_vocab_size 3 2 - 3) (List.replicate 2 0)) 2 0 0) ∧
    (split_embedding [[1, 2, 3], [4, 5, 6]] 2 0 true 1 =
      split2d [[1, 2, 3], [4, 5, 6]] 2 0 1) :=
  ⟨(split_embedding_hidden_assert [[1, 2, 3], [4, 5, 6]] 2 0).1 (by decide) (by decide),
    (split_embedding_hidden_assert [[1, 2], [3, 4], [5, 6]] 2 0).2.1 (by decide),
    (split_embedding_hidden_assert [[1, 2, 3], [4, 5, 6]] 2 0).2.2⟩

/- ### C2: grouped-query / multi-head path equivalence -/

theorem tsplit_one {α : Type u} (v : List α) (rank : Nat) : tsplit v 1 rank = some v := by
  rw [tsplit, if_pos rfl]

theorem split_qkv_tp_eval {α : Type u} (w : List α) (n tp rank : Nat)
    (hlen : w.length = 3 * n) (htp : 2 ≤ tp) (hdvd : n % tp = 0) (hr : rank < tp) :
    split_qkv_tp w n tp rank =
      some (((w.take n).drop (rank * (n / tp))).take (n / tp)
        ++ (((w.drop n).take n).drop (rank * (n / tp))).take (n / tp)
        ++ ((w.drop (2 * n)).drop (rank * (n / tp))).take (n / tp)) := by
  have h0 : (w.take n).length = n := by rw [List.length_take]; omega
  have h1 : ((w.drop n).take n).length = n := by
    rw [List.length_take, List.length_drop]; omega
  have h2 : (w.drop (2 * n)).length = n := by rw [List.length_drop]; omega
  have c0 := torch_chunk_getElem (w.take n) tp rank (by omega) (by rw [h0]; exact hdvd) hr
  have c1 := torch_chunk_getElem ((w.drop n).take n) tp rank (by omega)
    (by rw [h1]; exact hdvd) hr
  have c2 := torch_chunk_getElem (w.drop (2 * n)) tp rank (by omega)
    (by rw [h2]; exact hdvd) hr
  rw [h0] at c0
  rw [h1] at c1
  rw [h2] at c2
  have l0 := length_chunk_of_dvd (w.take n) tp rank (by rw [h0]; exact hdvd) hr
  have l1 := length_chunk_of_dvd ((w.drop n).take n) tp rank (by rw [h1]; exact hdvd) hr
  have l2 := length_chunk_of_dvd (w.drop (2 * n)) tp rank (by rw [h2]; exact hdvd) hr
  rw [h0] at l0
  rw [h1] at l1
  rw [h2] at l2
  rw [split_qkv_tp, if_pos hlen, if_neg (by omega), c0, Option.some_bind, c1,
    Option.some_bind, c2, Option.some_bind, Option.some_bind,
    if_pos (by rw [List.length_append, List.length_append, l0, l1, l2]; ring)]

theorem gqa_split_eval {α : Type u} (w : List α) (n tp rank : Nat)
    (hlen : w.length = 3 * n) (htp : 2 ≤ tp) (hdvd : n % tp = 0) (hr : rank < tp) :
    gqa_split w 1 tp rank =
      some (((w.take n).drop (rank * (n / tp))).take (n / tp)
        ++ (((w.drop n).take n).drop (rank * (n / tp))).take (n / tp)
        ++ ((w.drop (2 * n)).drop (rank * (n / tp))).take (n / tp)) := by
  have hm3 : w.length % (1 + 2) = 0 := by rw [hlen]; exact Nat.mul_mod_right 3 n
  have hdiv3 : w.length / (1 + 2) = n := by
    rw [hlen]; exact Nat.mul_div_cancel_left n (by norm_num)
  have h0 : (w.take n).length = n := by rw [List.length_take]; omega
  have h1 : ((w.drop n).take n).length = n := by
    rw [List.length_take, List.length_drop]; omega
  have h2 : (w.drop (2 * n)).length = n := by rw [List.length_drop]; omega
  have e3 : (w.drop (2 * n)).take n = w.drop (2 * n) :=
    List.take_of_length_le (by rw [h2])
  have t0 := tsplit_of_dvd (w.take n) tp rank (by omega) (by rw [h0]; exact hdvd) hr
  have t1 := tsplit_of_dvd ((w.drop n).take n) tp rank (by omega)
    (by rw [h1]; exact hdvd) hr
  have t2 := tsplit_of_dvd (w.drop (2 * n)) tp rank (by omega) (by rw [h2]; exact hdvd) hr
  rw [h0] at t0
  rw [h1] at t1
  rw [h2] at t2
  rw [gqa_split, if_pos hm3, hdiv3, one_mul, show (1 : Nat) + 1 = 2 from rfl, e3, t0,
    Option.some_bind, t1, Option.some_bind, t2, Option.some_bind]

/-- C2: for `num_attention_heads == num_kv_heads` (so
`num_q_per_kv = 1`), a reassembled fused QKV weight or bias (leading
size `3 * hidden_size`), any `tp_size ≥ 1` dividing `hidden_size` and
any `rank < tp_size`, the grouped-query code path of `split_weights_tp`
(`gqa_split`) and the multi-head code path
(`split_qkv_tp` / `split_qkv_bias_tp`) produce bit-identical shards,
and the common shard exists. -/
theorem gqa_and_mha_qkv_paths_agree {α : Type u} (w : List α) (hidden tp rank : Nat)
    (hlen : w.length = 3 * hidden) (htp : 1 ≤ tp) (hdvd : hidden % tp = 0)
    (hr : rank < tp) :
    gqa_split w 1 tp rank = split_qkv_tp w hidden tp rank ∧
    ∃ s, gqa_split w 1 tp rank = some s := by
  rcases Nat.lt_or_ge 1 tp with h2 | hle
  · have e1 := gqa_split_eval w hidden tp rank hlen (by omega) hdvd hr
    have e2 := split_qkv_tp_eval w hidden tp rank hlen (by omega) hdvd hr
    rw [e1, e2]
    exact ⟨rfl, _, rfl⟩
  · have htp1 : tp = 1 := by omega
    subst htp1
    have hm3 : w.length % (1 + 2) = 0 := by rw [hlen]; exact Nat.mul_mod_right 3 hidden
    have hdiv3 : w.length / (1 + 2) = hidden := by
      rw [hlen]; exact Nat.mul_div_cancel_left hidden (by norm_num)
    rw [gqa_split, if_pos hm3, hdiv3, one_mul, show (1 : Nat) + 1 = 2 from rfl,
      tsplit_one, Option.some_bind, tsplit_one, Option.some_bind, tsplit_one,
      Option.some_bind, split_qkv_tp, if_pos hlen, if_pos rfl, Option.some_bind,
      Nat.div_one, if_pos hlen, List.append_assoc, three_blocks w hidden hlen]
    exact ⟨rfl, _, rfl⟩

/-- C2 witness: the two paths at a labelled `12`-row reassembled QKV
tensor with `hidden_size = 4`, `tp_size = 2`, `rank = 1`. -/
theorem gqa_and_mha_qkv_paths_agree_witness :
    (gqa_split ((List.range 12).map (fun r => (r : ℤ))) 1 2 1 = some [2, 3, 6, 7, 10, 11] ∧
      split_qkv_tp ((List.range 12).map (fun r => (r : ℤ))) 4 2 1
        = some [2, 3, 6, 7, 10, 11]) ∧
    (gqa_split ((List.range 12).map (fun r => (r : ℤ))) 1 2 1
        = split_qkv_tp ((List.range 12).map (fun r => (r : ℤ))) 4 2 1 ∧
      ∃ s, gqa_split ((List.range 12).map (fun r => (r : ℤ))) 1 2 1 = some s) :=
  ⟨by decide,
    gqa_and_mha_qkv_paths_agree ((List.range 12).map (fun r => (r : ℤ))) 4 2 1 (by decide)
      (by decide) (by decide) (by decide)⟩

/- ### C4: vocabulary padding in `split_embedding` -/

/-- C4: with parallel embedding enabled along the vocabulary axis
(`sharding_dim = 0`) and a vocabulary size not divisible by `tp_size`,
`split_embedding` appends zero rows at the end up to
`pad_vocab_size` — the next multiple of `tp_size` (strictly within
`tp_size` of the vocabulary size) — and returns the `rank`-th of the
`tp_size` equal chunks of the padded tensor; every shard has exactly
`pad_vocab_size / tp_size` rows, and the final shard ends in the
`pad_vocab_size - vocab_size` zero rows (last conjunct, whenever the
pad fits into one shard). -/
theorem split_embedding_pads_vocab (param : List (List ℤ)) (tp rank : Nat)
    (hmod : param.length % tp ≠ 0) (hr : rank < tp) :
    ∃ shard,
      split_embedding param tp rank true 0 = some shard ∧
      shard = ((param ++ List.replicate (pad_vocab_size param.length tp - param.length)
                  (List.replicate param.headI.length (0 : ℤ))).drop
                (rank * (pad_vocab_size param.length tp / tp))).take
              (pad_vocab_size param.length tp / tp) ∧
      shard.length = pad_vocab_size param.length tp / tp ∧
      param.length ≤ pad_vocab_size param.length tp ∧
      pad_vocab_size param.length tp < param.length + tp ∧
      pad_vocab_size param.length tp % tp = 0 ∧
      (rank = tp - 1 →
        pad_vocab_size param.length tp - param.length
            ≤ pad_vocab_size param.length tp / tp →
        shard = param.drop (rank * (pad_vocab_size param.length tp / tp))
          ++ List.replicate (pad_vocab_size param.length tp - param.length)
              (List.replicate param.headI.length (0 : ℤ))) := by
  have htp0 : tp ≠ 0 := by omega
  have htp1 : tp ≠ 1 := fun h => hmod (by rw [h]; exact Nat.mod_one _)
  have harith : param.length ≤ pad_vocab_size param.length tp ∧
      pad_vocab_size param.length tp < param.length + tp ∧
      pad_vocab_size param.length tp % tp = 0 := by
    obtain ⟨P, hP⟩ : ∃ P, tp * ((param.length + tp - 1) / tp) = P := ⟨_, rfl⟩
    have h1 := Nat.div_add_mod (param.length + tp - 1) tp
    rw [hP] at h1
    have h2 : (param.length + tp - 1) % tp < tp := Nat.mod_lt _ (by omega)
    refine ⟨?_, ?_, ?_⟩
    · rw [pad_vocab_size, Nat.mul_comm, hP]; omega
    · rw [pad_vocab_size, Nat.mul_comm, hP]; omega
    · rw [pad_vocab_size]; exact Nat.mul_mod_left _ _
  have hdvdP := harith.2.2
  have hplen : (param ++ List.replicate (pad_vocab_size param.length tp - param.length)
      (List.replicate param.headI.length (0 : ℤ))).length
        = pad_vocab_size param.length tp := by
    rw [List.length_append, List.length_replicate]
    have := harith.1
    omega
  have hsplit := tsplit_of_dvd
    (param ++ List.replicate (pad_vocab_size param.length tp - param.length)
      (List.replicate param.headI.length (0 : ℤ))) tp rank (by omega)
    (by rw [hplen]; exact hdvdP) hr
  rw [hplen] at hsplit
  have hshlen := length_chunk_of_dvd
    (param ++ List.replicate (pad_vocab_size param.length tp - param.length)
      (List.replicate param.headI.length (0 : ℤ))) tp rank
    (by rw [hplen]; exact hdvdP) hr
  rw [hplen] at hshlen
  refine ⟨_, ?_, rfl, hshlen, harith.1, harith.2.1, harith.2.2, ?_⟩
  · rw [split_embedding, if_neg (by simp), if_pos rfl, if_pos hmod,
      split2d_dim0_eq_tsplit, hsplit]
  · intro hrank hpad
    obtain ⟨P, hP⟩ : ∃ P, tp * (pad_vocab_size param.length tp / tp) = P := ⟨_, rfl⟩
    have hPV : P = pad_vocab_size param.length tp := by
      rw [← hP]; exact Nat.mul_div_cancel' (Nat.dvd_of_mod_eq_zero hdvdP)
    have hrc : rank * (pad_vocab_size param.length tp / tp)
        = P - pad_vocab_size param.length tp / tp := by
      rw [hrank, Nat.sub_mul, one_mul, hP]
    have hVle := harith.1
    have hrcle : rank * (pad_vocab_size param.length tp / tp) ≤ param.length := by
      rw [hrc]; omega
    rw [List.drop_append_of_le_length hrcle]
    refine List.take_of_length_le ?_
    rw [List.length_append, List.length_drop, List.length_replicate, hrc]
    omega

/-- C4 witness: vocabulary size `30001` with `tp_size = 8` pads to
`30008` and every shard has `3751` rows; the theorem instantiated at
the final rank `7`, whose shard ends in the `7` zero rows. -/
theorem split_embedding_pads_vocab_witness :
    (padParam.length % 8 ≠ 0 ∧ (7 : Nat) < 8 ∧
      pad_vocab_size 30001 8 = 30008 ∧ pad_vocab_size 30001 8 / 8 = 3751) ∧
    (∃ shard,
      split_embedding padParam 8 7 true 0 = some shard ∧
      shard = ((padParam ++ List.replicate (pad_vocab_size padParam.length 8 - padParam.length)
                  (List.replicate padParam.headI.length (0 : ℤ))).drop
                (7 * (pad_vocab_size padParam.length 8 / 8))).take
              (pad_vocab_size padParam.length 8 / 8) ∧
      shard.length = pad_vocab_size padParam.length 8 / 8 ∧
      padParam.length ≤ pad_vocab_size padParam.length 8 ∧
      pad_vocab_size padParam.length 8 < padParam.length + 8 ∧
      pad_vocab_size padParam.length 8 % 8 = 0 ∧
      (7 = 8 - 1 →
        pad_vocab_size padParam.length 8 - padParam.length
            ≤ pad_vocab_size padParam.length 8 / 8 →
        shard = padParam.drop (7 * (pad_vocab_size padParam.length 8 / 8))
          ++ List.replicate (pad_vocab_size padParam.length 8 - padParam.length)
              (List.replicate padParam.headI.length (0 : ℤ)))) :=
  ⟨⟨by rw [padParam, List.length_replicate]; decide, by decide, by decide, by decide⟩,
    split_embedding_pads_vocab padParam 8 7
      (by rw [padParam, List.length_replicate]; decide) (by decide)⟩

/- ### C1 and C7: the head-group reassembler -/

/-- C1 counterexample: the spec's concrete scenario
(`num_attention_heads=4, num_kv_heads=2, hidden_size=8, head_dim=2`,
rows labelled `0..9`) is not a valid fused QKV tensor: the reshape needs
`(2+2)*2*2 = 16` rows, so `shuffle_qkv_weights` fails on the 10-row
input and no reordered output exists. -/
theorem shuffle_qkv_weights_ten_rows_rejected :
    shuffle_qkv_weights rows10 cfgA = none := by decide

/-- C1 (amended): for every valid fused QKV input (leading size
`num_kv_heads * (num_q_per_kv + 2) * head_dim`; `α = List ℤ` for 2-D
weights, `α = ℤ` for 1-D biases), `shuffle_qkv_weights` returns a pure
row permutation of its input laid out as `qPart ++ kPart ++ vPart`:
all query rows first, in original group order, then the key rows (one
`head_dim`-row block per kv group, in group order), then the value rows
(same).  In the concrete scenario the valid tensor has 16 rows, and
with rows labelled `0..15` the output row order is
`[0,1,2,3, 8,9,10,11, 4,5, 12,13, 6,7, 14,15]` (see the witness). -/
theorem shuffle_qkv_weights_is_row_permutation {α : Type u} (rows : List α)
    (config : Config) (h : rows.length = qkvRows config) :
    ∃ out, shuffle_qkv_weights rows config = some out ∧ out.Perm rows ∧
      out = qPart rows config.num_kv_heads (num_q_per_kv config + 2) (head_dim config)
        ++ kPart rows config.num_kv_heads (num_q_per_kv config + 2) (head_dim config)
        ++ vPart rows config.num_kv_heads (num_q_per_kv config + 2) (head_dim config) := by
  obtain ⟨heq, hperm⟩ := shuffle_qkv_eq_some_perm rows config h
  exact ⟨_, heq, hperm, rfl⟩

/-- C1 witness: the 16-row labelled tensor is reassembled to the rows
`[0,1,2,3, 8,9,10,11, 4,5, 12,13, 6,7, 14,15]` (q-rows of group 0,
q-rows of group 1, k-rows of group 0, k-rows of group 1, v-rows of
group 0, v-rows of group 1), and the theorem applies to it. -/
theorem shuffle_qkv_weights_is_row_permutation_witness :
    (rows16.length = qkvRows cfgA ∧
      shuffle_qkv_weights rows16 cfgA =
        some (([0, 1, 2, 3, 8, 9, 10, 11, 4, 5, 12, 13, 6, 7, 14, 15] : List ℤ).map
          (fun r => List.replicate 8 r))) ∧
    (∃ out, shuffle_qkv_weights rows16 cfgA = some out ∧ out.Perm rows16 ∧
      out = qPart rows16 cfgA.num_kv_heads (num_q_per_kv cfgA + 2) (head_dim cfgA)
        ++ kPart rows16 cfgA.num_kv_heads (num_q_per_kv cfgA + 2) (head_dim cfgA)
        ++ vPart rows16 cfgA.num_kv_heads (num_q_per_kv cfgA + 2) (head_dim cfgA)) :=
  ⟨⟨by decide, by decide⟩,
    shuffle_qkv_weights_is_row_permutation rows16 cfgA (by decide)⟩

/-- C7: on every valid fused QKV weight or bias (leading size
`num_kv_heads * (num_q_per_kv + 2) * head_dim`; for 2-D weights the
trailing dimension rides along unchanged inside the row values, and the
claim's `trailing > 1` restriction keeps the final `squeeze()` a no-op),
`shuffle_qkv_weights` succeeds and its output has exactly the input's
leading size, so the `assert input_shape == weights.shape` never
fires. -/
theorem shuffle_qkv_weights_shape_preserved {α : Type u} (rows : List α)
    (config : Config) (h : rows.length = qkvRows config) :
    ∃ out, shuffle_qkv_weights rows config = some out ∧ out.length = rows.length := by
  obtain ⟨heq, hperm⟩ := shuffle_qkv_eq_some_perm rows config h
  exact ⟨_, heq, hperm.length_eq⟩

/-- C7 witness: shape preservation at the 16-row labelled tensor. -/
theorem shuffle_qkv_weights_shape_preserved_witness :
    (rows16.length = qkvRows cfgA) ∧
    (∃ out, shuffle_qkv_weights rows16 cfgA = some out ∧ out.length = rows16.length) :=
  ⟨by decide, shuffle_qkv_weights_shape_preserved rows16 cfgA (by decide)⟩

/- ### Orchestrator preservation lemmas -/

theorem qkv_step_preserves (quant : Quantizer) (config : Config) (args : Args)
    (rank : Nat) (mid : Key) (w w1 : Dict) (k : Key)
    (h : qkv_step quant config args rank (layersPfxK ++ mid) w = some w1)
    (hk : layersPfxK.isPrefixOf k = false) :
    dlookup w1 k = dlookup w k := by
  rw [qkv_step] at h
  simp only [Option.bind_eq_some, Option.some.injEq] at h
  obtain ⟨qw, hqw, qb, hqb, sw, hsw, sb, hsb, hw1⟩ := h
  subst hw1
  exact dlookup_dupdate_not_mem _ _ _
    (get_tllm_layer_keys_ne quant sw mid (some sb) args.use_weight_only k hk)

theorem lin_step_preserves (quant : Quantizer) (args : Args) (rank : Nat) (mid : Key)
    (dim : Nat) (bias_split : Bool) (w w1 : Dict) (k : Key)
    (h : lin_step quant args rank (layersPfxK ++ mid) dim bias_split w = some w1)
    (hk : layersPfxK.isPrefixOf k = false) :
    dlookup w1 k = dlookup w k := by
  rw [lin_step] at h
  simp only [Option.bind_eq_some, Option.some.injEq] at h
  obtain ⟨wgt, hwgt, b, hb, ws, hws, bs, hbs, hw1⟩ := h
  subst hw1
  exact dlookup_dupdate_not_mem _ _ _
    (get_tllm_layer_keys_ne quant ws mid (some bs) args.use_weight_only k hk)

theorem convert_layer_preserves (quant : Quantizer) (config : Config) (args : Args)
    (rank : Nat) (w w2 : Dict) (layer_id : Nat) (k : Key)
    (h : convert_layer quant config args rank w layer_id = some w2)
    (hk : layersPfxK.isPrefixOf k = false) :
    dlookup w2 k = dlookup w k := by
  rw [convert_layer] at h
  simp only [Option.bind_eq_some, List.append_assoc] at h
  obtain ⟨wa, ha, wb, hb, wc, hc, hd⟩ := h
  rw [lin_step_preserves quant args rank _ 1 false wc w2 k hd hk,
    lin_step_preserves quant args rank _ 0 true wb wc k hc hk,
    lin_step_preserves quant args rank _ 1 false wa wb k hb hk,
    qkv_step_preserves quant config args rank _ w wa k ha hk]

theorem run_layers_preserves (quant : Quantizer) (config : Config) (args : Args)
    (rank : Nat) :
    ∀ (ids : List Nat) (w w2 : Dict) (k : Key),
      run_layers (fun w i => convert_layer quant config args rank w i) ids w = some w2 →
      layersPfxK.isPrefixOf k = false →
      dlookup w2 k = dlookup w k := by
  intro ids
  induction ids with
  | nil =>
    intro w w2 k h hk
    simp only [run_layers] at h
    injection h with h
    subst h
    rfl
  | cons i rest ih =>
    intro w w2 k h hk
    simp only [run_layers, Option.bind_eq_some] at h
    obtain ⟨w1, h1, h2⟩ := h
    rw [ih w1 w2 k h2 hk,
      convert_layer_preserves quant config args rank w w1 i k h1 hk]

theorem shuffle_pass_preserves (config : Config) :
    ∀ (d d2 : Dict) (k : Key), shuffle_pass config d = some d2 →
      containsSub qkvSubK k = false → dlookup d2 k = dlookup d k := by
  intro d
  induction d with
  | nil =>
    intro d2 k h hk
    simp only [shuffle_pass] at h
    injection h with h
    subst h
    rfl
  | cons e rest ih =>
    intro d2 k h hk
    obtain ⟨k2, v⟩ := e
    simp only [shuffle_pass, Option.bind_eq_some, Option.some.injEq] at h
    obtain ⟨v2, hv2, d3, hd3, hcons⟩ := h
    subst hcons
    rw [dlookup, dlookup]
    by_cases hkk : k2 = k
    · subst hkk
      rw [if_neg (by rw [hk]; simp)] at hv2
      injection hv2 with hv2
      subst hv2
      rw [if_pos rfl, if_pos rfl]
    · rw [if_neg hkk, if_neg hkk]
      exact ih d3 k hd3 hk

/- ### C8: embedding replicated, lm_head split, in `split_weights_tp` -/

/-- C8: `split_weights_tp` calls `split_embedding` with
`use_parallel_embedding` left at its Python default `False`, so for
every `tp_size` and rank the output entry
`transformer.vocab_embedding.weight` is exactly the input entry — the
full, unsharded, unpadded embedding, replicated on every rank — while
`lm_head.weight` is always passed through
`split_matrix_tp(..., dim=0)`, i.e. split along axis 0. -/
theorem split_weights_tp_embedding_replicated (quant : Quantizer) (config : Config)
    (weights : Dict) (args : Args) (rank : Nat) (w2 : Dict)
    (h : split_weights_tp quant config weights args rank = some w2) :
    dlookup w2 vocabKeyK = dlookup weights vocabKeyK ∧
    (∃ lm lm2, dlookup weights lmHeadKeyK = some (TVal.mat lm) ∧
      split_matrix_tp lm args.tp_size rank 0 = some lm2 ∧
      dlookup w2 lmHeadKeyK = some (TVal.mat lm2)) := by
  rw [split_weights_tp] at h
  simp only [Option.bind_eq_some, Option.some.injEq] at h
  obtain ⟨w1, hrun, embT, hembT, emb, hemb, emb2, hse, lmT, hlmT, lm, hlm, lm2, hsp,
    hw2⟩ := h
  subst hw2
  have hvl : layersPfxK.isPrefixOf vocabKeyK = false := by decide
  have hll : layersPfxK.isPrefixOf lmHeadKeyK = false := by decide
  have hnvl : vocabKeyK ≠ lmHeadKeyK := by decide
  have hnlv : lmHeadKeyK ≠ vocabKeyK := by decide
  have hse2 : emb2 = emb := by
    rw [split_embedding, if_pos rfl] at hse
    injection hse with hse
    exact hse.symm
  have hembT2 : embT = TVal.mat emb := by
    cases embT with
    | mat m => simp only [Option.some.injEq] at hemb; rw [hemb]
    | vec v => simp at hemb
  have hlmT2 : lmT = TVal.mat lm := by
    cases lmT with
    | mat m => simp only [Option.some.injEq] at hlm; rw [hlm]
    | vec v => simp at hlm
  have hpres := run_layers_preserves quant config args rank
    (List.range config.num_hidden_layers) weights w1 vocabKeyK hrun hvl
  have hpresL := run_layers_preserves quant config args rank
    (List.range config.num_hidden_layers) weights w1 lmHeadKeyK hrun hll
  constructor
  · rw [dlookup_dinsert_ne _ _ _ _ hnlv, dlookup_dinsert_self, ← hpres, hembT, hembT2,
      hse2]
  · refine ⟨lm, lm2, ?_, hsp, ?_⟩
    · rw [dlookup_dinsert_ne _ _ _ _ hnvl] at hlmT
      rw [← hpresL, hlmT, hlmT2]
    · rw [dlookup_dinsert_self]

/-- C8 witness: a zero-layer model with a `2 × 1` embedding and a
`2 × 1` lm-head, `tp_size = 2`, rank 0: the embedding entry survives
whole and `lm_head.weight` becomes its first chunk. -/
theorem split_weights_tp_embedding_replicated_witness :
    (split_weights_tp quantId cfgA wA argsA 0
        = some [(vocabKeyK, TVal.mat [[1], [2]]), (lmHeadKeyK, TVal.mat [[3]])]) ∧
    (dlookup [(vocabKeyK, TVal.mat [[1], [2]]), (lmHeadKeyK, TVal.mat [[3]])] vocabKeyK
        = dlookup wA vocabKeyK ∧
      ∃ lm lm2, dlookup wA lmHeadKeyK = some (TVal.mat lm) ∧
        split_matrix_tp lm argsA.tp_size 0 0 = some lm2 ∧
        dlookup [(vocabKeyK, TVal.mat [[1], [2]]), (lmHeadKeyK, TVal.mat [[3]])]
          lmHeadKeyK = some (TVal.mat lm2)) :=
  ⟨by decide,
    split_weights_tp_embedding_replicated quantId cfgA wA argsA 0 _ (by decide)⟩

/- ### C9: `convert_hf_weights` builds lm_head from the embedding -/

/-- C9: `convert_hf_weights` overwrites `lm_head.weight` with a clone of
the renamed input embedding (`transformer.vocab_embedding.weight`)
before any splitting, ignoring any lm-head weight in the source
checkpoint; with the vocabulary divisible by `tp_size` (the claim's
"equal chunks" reading) and `rank < tp_size`, the final output
`lm_head.weight` is the `rank`-th of the `tp_size` equal chunks of the
source embedding matrix along the vocabulary axis. -/
theorem convert_hf_weights_lm_head_from_embedding (quant : Quantizer) (hf : Dict)
    (config : Config) (args : Args) (rank : Nat) (w2 : Dict) (emb : List (List ℤ))
    (hconv : convert_hf_weights quant hf config args rank = some w2)
    (hemb : dlookup (renameAll hf) vocabKeyK = some (TVal.mat emb))
    (htp : 1 ≤ args.tp_size) (hdvd : emb.length % args.tp_size = 0)
    (hr : rank < args.tp_size) :
    dlookup w2 lmHeadKeyK =
      some (TVal.mat ((emb.drop (rank * (emb.length / args.tp_size))).take
        (emb.length / args.tp_size))) := by
  rw [convert_hf_weights] at hconv
  simp only [Option.bind_eq_some] at hconv
  obtain ⟨embT, hembT, weights2, hshuf, hsplit⟩ := hconv
  have hembT2 : embT = TVal.mat emb := by
    rw [hemb] at hembT
    injection hembT with h2
    exact h2.symm
  have hqkvL : containsSub qkvSubK lmHeadKeyK = false := by decide
  have hll : layersPfxK.isPrefixOf lmHeadKeyK = false := by decide
  have hnvl : vocabKeyK ≠ lmHeadKeyK := by decide
  have hw2lm : dlookup weights2 lmHeadKeyK = some (TVal.mat emb) := by
    rw [shuffle_pass_preserves config _ weights2 lmHeadKeyK hshuf hqkvL,
      dlookup_dinsert_self, hembT2]
  rw [split_weights_tp] at hsplit
  simp only [Option.bind_eq_some, Option.some.injEq] at hsplit
  obtain ⟨w1, hrun, embT3, hembT3, emb3, hemb3, emb4, hse, lmT, hlmT, lm, hlm, lm2, hsp,
    hw2⟩ := hsplit
  subst hw2
  have hpresL := run_layers_preserves quant config args rank
    (List.range config.num_hidden_layers) weights2 w1 lmHeadKeyK hrun hll
  have hlmv : lm = emb := by
    rw [dlookup_dinsert_ne _ _ _ _ hnvl, hpresL, hw2lm] at hlmT
    cases lmT with
    | mat m =>
      simp only [Option.some.injEq, TVal.mat.injEq] at hlmT
      simp only [Option.some.injEq] at hlm
      rw [← hlm, ← hlmT]
    | vec v => simp at hlmT
  have hsp2 := hsp
  rw [split_matrix_tp, split2d_dim0_eq_tsplit, hlmv,
    tsplit_of_dvd emb args.tp_size rank htp hdvd hr] at hsp2
  injection hsp2 with hsp2
  rw [dlookup_dinsert_self, ← hsp2]

/-- C9 witness: a checkpoint holding only `model.embed_tokens.weight`
(a `2 × 1` matrix), converted with `tp_size = 2`, rank 1: the final
`lm_head.weight` is the second chunk of the source embedding. -/
theorem convert_hf_weights_lm_head_from_embedding_witness :
    (convert_hf_weights quantId hfA cfgA argsA 1
        = some [(vocabKeyK, TVal.mat [[1], [2]]), (lmHeadKeyK, TVal.mat [[2]])] ∧
      dlookup (renameAll hfA) vocabKeyK = some (TVal.mat [[1], [2]])) ∧
    dlookup [(vocabKeyK, TVal.mat [[1], [2]]), (lmHeadKeyK, TVal.mat [[2]])] lmHeadKeyK =
      some (TVal.mat ((([[1], [2]] : List (List ℤ)).drop
        (1 * (([[1], [2]] : List (List ℤ)).length / argsA.tp_size))).take
        (([[1], [2]] : List (List ℤ)).length / argsA.tp_size))) :=
  ⟨⟨by decide, by decide⟩,
    convert_hf_weights_lm_head_from_embedding quantId hfA cfgA argsA 1 _ [[1], [2]]
      (by decide) (by decide) (by decide) (by decide) (by decide)⟩

end Phi3Small
